import Mathlib

/-!
Shallow embedding of `crates/pagecache/src/ds/stack.rs`: a Treiber-style
lock-free stack with epoch-based deferred reclamation.

Modelling conventions:
* A raw pointer (`Shared<Node<T>>`) is an `Option Addr`; `none` is the null
  pointer, `some a` points at heap address `a`.
* The heap is an association list from addresses to nodes; `insert` prepends,
  and `lookup` returns the most recent binding, so an in-place store to a
  field (`node.next.store(...)`) is modelled by inserting an updated node at
  the same address.
* The machine state (`Stack`) carries the heap, the atomic `head` word, a
  fresh-address counter standing for the allocator, and the list of node
  addresses that have been handed to `Guard::defer` for deferred destruction
  (the epoch collaborator runs the Rust drop of each deferred `Owned<Node>`
  later; what that drop destroys is modelled separately by `dropDestroys`).
* Each operation is modelled by its sequentially executed atomic step: the
  retry loops in `push`/`_pop` are entered with the current head, and in a
  sequential execution the `compare_and_set` on that snapshot succeeds, so
  exactly one loop iteration runs.
-/

namespace SledStack

/-- Heap address of a node. -/
abbrev Addr := Nat

/-- `Node<T>` from the source: one value `inner` and an atomic pointer
`next` to the next node (null = `none`). -/
structure Node (α : Type) where
  inner : α
  next : Option Addr
deriving Repr, DecidableEq

/-- The heap: an association list from addresses to nodes. Newer bindings
shadow older ones (an in-place field store is modelled by re-binding). -/
abbrev Heap (α : Type) := List (Addr × Node α)

/-- Read the node at address `a` (most recent binding wins). -/
def lookup {α : Type} (h : Heap α) (a : Addr) : Option (Node α) :=
  (h.find? (fun p => p.1 == a)).map Prod.snd

/-- Bind address `a` to node `n` (prepend, shadowing any older binding). -/
def insert {α : Type} (h : Heap α) (a : Addr) (n : Node α) : Heap α :=
  (a, n) :: h

/-- `isChain h p as` holds when following `next` pointers from `p` visits
exactly the addresses `as`, in order, ending at null. -/
def isChain {α : Type} (h : Heap α) : Option Addr → List Addr → Bool
  | none, [] => true
  | none, _ :: _ => false
  | some _, [] => false
  | some a, b :: bs =>
    a == b &&
      match lookup h a with
      | none => false
      | some n => isChain h n.next bs

/-- The values stored along the addresses `as` (top to bottom). -/
def chainValues {α : Type} (h : Heap α) (as : List Addr) : List α :=
  as.filterMap (fun a => (lookup h a).map Node.inner)

/-- The `(address, value)` pairs stored along the addresses `as`. -/
def chainPairs {α : Type} (h : Heap α) (as : List Addr) : List (Addr × α) :=
  as.filterMap (fun a => (lookup h a).map (fun n => (a, n.inner)))

/-- What running the destructor of the node at `p` destroys, from
`impl Drop for Node` in the source: `Drop::drop` loads `next` and, if
non-null, drops the boxed next node (recursively, the whole tail), and the
compiler-generated field glue then drops this node's own `inner`. The result
lists the `(address, value)` pairs destroyed, in destruction order (tail
first, own value last). `fuel` bounds the recursion; it is irrelevant as
long as it is at least the chain length. -/
def dropDestroys {α : Type} (h : Heap α) : Nat → Option Addr → List (Addr × α)
  | _, none => []
  | 0, some _ => []
  | fuel + 1, some a =>
    match lookup h a with
    | none => []
    | some n => dropDestroys h fuel n.next ++ [(a, n.inner)]

/-- The nesting depth of destructor invocations when the node at `p` is
destroyed: in the source, `Node::drop` runs `drop(Box::from_raw(next))`
inside itself, so each node of the tail adds one nested destructor frame
(the drop of the tail completes before the current frame returns). An
explicit iterative loop would keep this depth constant. -/
def dropCallDepth {α : Type} (h : Heap α) : Nat → Option Addr → Nat
  | _, none => 0
  | 0, some _ => 0
  | fuel + 1, some a =>
    match lookup h a with
    | none => 0
    | some n => dropCallDepth h fuel n.next + 1

/-- `Stack<T>` together with the ambient machine state: the heap of nodes,
the atomic `head` pointer, the allocator's fresh-address counter, and the
addresses handed to `Guard::defer` (most recent first). -/
structure Stack (α : Type) where
  heap : Heap α
  head : Option Addr
  nextAlloc : Addr
  deferred : List Addr
deriving Repr, DecidableEq

/-- `Default for Stack`: `head` is the null pointer (empty heap, fresh
allocator, nothing deferred). -/
def Stack.new {α : Type} : Stack α :=
  { heap := [], head := none, nextAlloc := 0, deferred := [] }

/-- Well-formed allocator state: every bound address is below the
fresh-address counter, so newly allocated addresses are fresh. -/
def Stack.WF {α : Type} (s : Stack α) : Prop :=
  ∀ p ∈ s.heap, p.1 < s.nextAlloc

instance {α : Type} (s : Stack α) : Decidable s.WF := by
  unfold Stack.WF; infer_instance

/-- `Stack::push`: allocate `Node { inner, next: null }`, then loop
{ read `head`; store it into the node's `next`; CAS `head` to the node }.
Sequentially the CAS on the fresh snapshot succeeds, so one iteration
runs: the node is published with `next` = the old head. -/
def Stack.push {α : Type} (s : Stack α) (inner : α) : Stack α :=
  let a := s.nextAlloc
  { heap := insert s.heap a ⟨inner, s.head⟩
    head := some a
    nextAlloc := a + 1
    deferred := s.deferred }

/-- `Stack::_pop`: read `head`; if null return `None`. Otherwise read the
head node's `next`, CAS `head` from the snapshot to `next` (sequentially
this succeeds), hand the popped node to `guard.defer` — the source does NOT
null its `next` and does not forget its `inner` — and return
`ptr::read(&h.inner)`. The `lookup … = none` branch models the (unreachable
for well-formed states) dereference of an unallocated address. -/
def Stack._pop {α : Type} (s : Stack α) : Option α × Stack α :=
  match s.head with
  | none => (none, s)
  | some a =>
    match lookup s.heap a with
    | none => (none, s)
    | some h =>
      (some h.inner,
        { s with head := h.next, deferred := a :: s.deferred })

/-- `Stack::cas`: one `compare_and_set` of `head` from `old` to `new`.
On success, defer `old` (if non-null) and return `Ok(new)`; on failure,
defer `new` (if non-null) and return `Err(current head)`. -/
def Stack.cas {α : Type} (s : Stack α) (old new : Option Addr) :
    Except (Option Addr) (Option Addr) × Stack α :=
  if s.head = old then
    (Except.ok new,
      { s with
        head := new
        deferred :=
          match old with
          | some a => a :: s.deferred
          | none => s.deferred })
  else
    (Except.error s.head,
      { s with
        deferred :=
          match new with
          | some a => a :: s.deferred
          | none => s.deferred })

/-- `Stack::cap` (compare and push): allocate `Node { inner: new, next: old }`,
then one `compare_and_set` of `head` from `old` to the node. On success
return `Ok(node)`. On failure, store null into the node's `next` (the
source comment: prevent the current shared head from being dropped when
this node is dropped), defer the node, and return `Err(current head)`. -/
def Stack.cap {α : Type} (s : Stack α) (old : Option Addr) (new : α) :
    Except (Option Addr) Addr × Stack α :=
  let a := s.nextAlloc
  let h1 := insert s.heap a ⟨new, old⟩
  if s.head = old then
    (Except.ok a,
      { s with heap := h1, head := some a, nextAlloc := a + 1 })
  else
    (Except.error s.head,
      { s with
        heap := insert h1 a ⟨new, none⟩
        nextAlloc := a + 1
        deferred := a :: s.deferred })

/-- `Stack::head`: load the `head` pointer. -/
def Stack.headSnapshot {α : Type} (s : Stack α) : Option Addr :=
  s.head

/-- `StackIter`: the cursor of the read-only iterator (`inner` field of the
source struct; the guard is ambient). -/
structure StackIter (α : Type) where
  inner : Option Addr
deriving Repr, DecidableEq

/-- `StackIter::from_ptr`: start iterating from the snapshot pointer. -/
def StackIter.from_ptr {α : Type} (ptr : Option Addr) : StackIter α :=
  ⟨ptr⟩

/-- `Iterator::next` for `StackIter`: if the cursor is null return `None`;
otherwise return a reference to the current node's `inner` and advance the
cursor to its `next`. The heap is returned unchanged — the source performs
only loads. The `lookup … = none` branch models dereferencing an
unallocated address, excluded by chain well-formedness. -/
def StackIter.next {α : Type} (h : Heap α) (it : StackIter α) :
    Option α × StackIter α × Heap α :=
  match it.inner with
  | none => (none, it, h)
  | some a =>
    match lookup h a with
    | none => (none, it, h)
    | some n => (some n.inner, ⟨n.next⟩, h)

/-- Driving the iterator to exhaustion (or until `fuel` runs out),
collecting the yielded values in order. -/
def StackIter.collect {α : Type} (h : Heap α) : Nat → StackIter α → List α
  | 0, _ => []
  | fuel + 1, it =>
    match StackIter.next h it with
    | (some v, it2, _) => v :: StackIter.collect h fuel it2
    | (none, _, _) => []

/-- The loop body of `node_from_frag_vec`: fold over the items (the source
iterates `from.into_iter().rev()`; the caller passes the reversed list),
allocating for each item a node whose `next` is the previously built node
(`last`), or null for the first one. Returns the final `last` and the grown
state. -/
def nodeFromFragGo {α : Type} (s : Stack α) (last : Option Addr) :
    List α → Option Addr × Stack α
  | [] => (last, s)
  | item :: rest =>
    let a := s.nextAlloc
    nodeFromFragGo
      { s with heap := insert s.heap a ⟨item, last⟩, nextAlloc := a + 1 }
      (some a) rest

/-- `node_from_frag_vec`: build a freestanding chain from the vector,
first element on top. The source ends with
`last.expect("at least one frag was provided in the from Vec")`: the
returned pointer is `none` exactly when that `expect` panics, i.e. the
panic is modelled as a `none` first component. -/
def node_from_frag_vec {α : Type} (s : Stack α) (fromVec : List α) :
    Option Addr × Stack α :=
  nodeFromFragGo s none fromVec.reverse

/-- The root addresses handed to `Guard::defer` for an optional pointer:
the single address for a non-null pointer, nothing for null. -/
def optToList : Option Addr → List Addr
  | none => []
  | some a => [a]

/-- Everything destroyed once the epoch collaborator runs the Rust drop of
each deferred root node. -/
def deferredDestroys {α : Type} (h : Heap α) (fuel : Nat) (roots : List Addr) :
    List (Addr × α) :=
  (roots.map (fun a => dropDestroys h fuel (some a))).flatten

/-- A concrete two-node stack: head node (address 0, value 5) linking to a
second node (address 1, value 4). -/
def stackA : Stack Nat :=
  { heap := [(0, ⟨5, some 1⟩), (1, ⟨4, none⟩)]
    head := some 0
    nextAlloc := 2
    deferred := [] }

/-- The chain `[1, 2, 3]` built by the bulk builder over a fresh stack. -/
def build123 : Option Addr × Stack Nat :=
  node_from_frag_vec Stack.new [1, 2, 3]

/-- The stack after atomically publishing the `[1, 2, 3]` chain onto the
empty stack via `compare_and_swap(null, chain)`. -/
def published123 : Stack Nat :=
  (Stack.cas build123.2 none build123.1).2

/-! ### Heap lemmas -/

theorem lookup_insert_self {α : Type} (h : Heap α) (a : Addr) (n : Node α) :
    lookup (insert h a n) a = some n := by
  simp [lookup, insert, List.find?]

theorem lookup_insert_ne {α : Type} (h : Heap α) {a b : Addr} (n : Node α)
    (hne : b ≠ a) : lookup (insert h a n) b = lookup h b := by
  have : (a == b) = false := by
    simp [Ne.symm hne]
  simp [lookup, insert, List.find?, this]

theorem isChain_nil_iff {α : Type} (h : Heap α) (p : Option Addr) :
    isChain h p [] = true ↔ p = none := by
  cases p <;> simp [isChain]

theorem isChain_cons {α : Type} (h : Heap α) {p : Option Addr} {b : Addr}
    {bs : List Addr} (hc : isChain h p (b :: bs) = true) :
    p = some b ∧ ∃ n, lookup h b = some n ∧ isChain h n.next bs = true := by
  cases p with
  | none => simp [isChain] at hc
  | some a =>
    simp only [isChain, Bool.and_eq_true, beq_iff_eq] at hc
    obtain ⟨hab, hrest⟩ := hc
    subst hab
    cases hl : lookup h a with
    | none => rw [hl] at hrest; exact absurd hrest (by simp)
    | some n =>
      rw [hl] at hrest
      exact ⟨rfl, n, rfl, hrest⟩

theorem isChain_cons_intro {α : Type} (h : Heap α) {b : Addr} {bs : List Addr}
    (n : Node α) (hl : lookup h b = some n)
    (hrest : isChain h n.next bs = true) :
    isChain h (some b) (b :: bs) = true := by
  simp only [isChain, hl, beq_self_eq_true, Bool.true_and]
  exact hrest

theorem isChain_insert_fresh {α : Type} {h : Heap α} {a : Addr} {n : Node α} :
    ∀ {p : Option Addr} {as : List Addr}, isChain h p as = true → a ∉ as →
      isChain (insert h a n) p as = true := by
  intro p as
  induction as generalizing p with
  | nil =>
    intro hc _
    rw [isChain_nil_iff] at hc ⊢
    exact hc
  | cons b bs ih =>
    intro hc hna
    obtain ⟨hp, nb, hl, hrest⟩ := isChain_cons h hc
    subst hp
    have hba : b ≠ a := fun hEq => hna (hEq ▸ List.mem_cons_self b bs)
    refine isChain_cons_intro (insert h a n) nb ?_ ?_
    · rw [lookup_insert_ne h n hba]; exact hl
    · exact ih hrest (fun hmem => hna (List.mem_cons_of_mem _ hmem))

theorem chainValues_insert_fresh {α : Type} (h : Heap α) (a : Addr)
    (n : Node α) : ∀ (as : List Addr), a ∉ as →
      chainValues (insert h a n) as = chainValues h as := by
  intro as
  induction as with
  | nil => intro _; rfl
  | cons b bs ih =>
    intro hna
    have hba : b ≠ a := fun hEq => hna (hEq ▸ List.mem_cons_self b bs)
    have hbs : a ∉ bs := fun hmem => hna (List.mem_cons_of_mem _ hmem)
    simp only [chainValues, List.filterMap_cons] at ih ⊢
    rw [lookup_insert_ne h n hba, ih hbs]

theorem chainValues_cons {α : Type} (h : Heap α) {b : Addr} (bs : List Addr)
    {n : Node α} (hl : lookup h b = some n) :
    chainValues h (b :: bs) = n.inner :: chainValues h bs := by
  simp [chainValues, List.filterMap_cons, hl]

theorem chainPairs_map_snd {α : Type} (h : Heap α) (as : List Addr) :
    (chainPairs h as).map Prod.snd = chainValues h as := by
  induction as with
  | nil => rfl
  | cons b bs ih =>
    simp only [chainPairs, chainValues, List.filterMap_cons] at ih ⊢
    cases lookup h b <;> simp [ih]

theorem chainPairs_map_fst {α : Type} (h : Heap α) :
    ∀ {p : Option Addr} {as : List Addr}, isChain h p as = true →
      (chainPairs h as).map Prod.fst = as := by
  intro p as
  induction as generalizing p with
  | nil => intro _; rfl
  | cons b bs ih =>
    intro hc
    obtain ⟨hp, nb, hl, hrest⟩ := isChain_cons h hc
    simp only [chainPairs, List.filterMap_cons, hl, Option.map_some]
    simpa using ih hrest

theorem chainValues_length {α : Type} (h : Heap α) {p : Option Addr}
    {as : List Addr} (hc : isChain h p as = true) :
    (chainValues h as).length = as.length := by
  have := chainPairs_map_fst h hc
  calc (chainValues h as).length
      = ((chainPairs h as).map Prod.snd).length := by
        rw [chainPairs_map_snd]
    _ = ((chainPairs h as).map Prod.fst).length := by
        simp
    _ = as.length := by rw [this]

theorem dropDestroys_none {α : Type} (h : Heap α) (fuel : Nat) :
    dropDestroys h fuel none = [] := by
  cases fuel <;> rfl

theorem dropCallDepth_none {α : Type} (h : Heap α) (fuel : Nat) :
    dropCallDepth h fuel none = 0 := by
  cases fuel <;> rfl

theorem dropDestroys_eq_chainPairs {α : Type} (h : Heap α) :
    ∀ {as : List Addr} {p : Option Addr} {fuel : Nat},
      isChain h p as = true → as.length ≤ fuel →
      dropDestroys h fuel p = (chainPairs h as).reverse := by
  intro as
  induction as with
  | nil =>
    intro p fuel hc _
    rw [isChain_nil_iff] at hc
    subst hc
    rw [dropDestroys_none]
    rfl
  | cons b bs ih =>
    intro p fuel hc hlen
    obtain ⟨hp, nb, hl, hrest⟩ := isChain_cons h hc
    subst hp
    obtain ⟨f, rfl⟩ : ∃ f, fuel = f + 1 := by
      cases fuel with
      | zero => simp at hlen
      | succ f => exact ⟨f, rfl⟩
    have hf : bs.length ≤ f := by
      simpa using Nat.succ_le_succ_iff.mp (by simpa using hlen)
    simp only [dropDestroys, hl]
    rw [ih hrest hf]
    simp [chainPairs, List.filterMap_cons, hl]

theorem dropCallDepth_eq_length {α : Type} (h : Heap α) :
    ∀ {as : List Addr} {p : Option Addr} {fuel : Nat},
      isChain h p as = true → as.length ≤ fuel →
      dropCallDepth h fuel p = as.length := by
  intro as
  induction as with
  | nil =>
    intro p fuel hc _
    rw [isChain_nil_iff] at hc
    subst hc
    rw [dropCallDepth_none]
    rfl
  | cons b bs ih =>
    intro p fuel hc hlen
    obtain ⟨hp, nb, hl, hrest⟩ := isChain_cons h hc
    subst hp
    obtain ⟨f, rfl⟩ : ∃ f, fuel = f + 1 := by
      cases fuel with
      | zero => simp at hlen
      | succ f => exact ⟨f, rfl⟩
    have hf : bs.length ≤ f := by
      simpa using Nat.succ_le_succ_iff.mp (by simpa using hlen)
    simp only [dropCallDepth, hl]
    rw [ih hrest hf]
    simp

theorem isChain_none {α : Type} (h : Heap α) {as : List Addr}
    (hc : isChain h none as = true) : as = [] := by
  cases as with
  | nil => rfl
  | cons b bs => simp [isChain] at hc

/-! ### Bulk builder lemmas -/

theorem nodeFromFragGo_spec {α : Type} :
    ∀ (items : List α) (s : Stack α) (last : Option Addr) (as : List Addr),
      Stack.WF s → isChain s.heap last as = true →
      (∀ b ∈ as, b < s.nextAlloc) →
      ∃ as2 : List Addr,
        isChain (nodeFromFragGo s last items).2.heap
            (nodeFromFragGo s last items).1 (as2 ++ as) = true ∧
        chainValues (nodeFromFragGo s last items).2.heap (as2 ++ as)
            = items.reverse ++ chainValues s.heap as ∧
        as2.length = items.length ∧
        Stack.WF (nodeFromFragGo s last items).2 ∧
        (∀ b ∈ as2 ++ as, b < (nodeFromFragGo s last items).2.nextAlloc) ∧
        (nodeFromFragGo s last items).2.head = s.head ∧
        (nodeFromFragGo s last items).2.deferred = s.deferred := by
  intro items
  induction items with
  | nil =>
    intro s last as hWF hchain hbelow
    exact ⟨[], hchain, rfl, rfl, hWF, hbelow, rfl, rfl⟩
  | cons item rest ih =>
    intro s last as hWF hchain hbelow
    simp only [nodeFromFragGo]
    have hfresh : s.nextAlloc ∉ as := fun hmem =>
      Nat.lt_irrefl _ (hbelow _ hmem)
    have hWF2 : Stack.WF
        { s with
          heap := insert s.heap s.nextAlloc ⟨item, last⟩
          nextAlloc := s.nextAlloc + 1 } := by
      intro p hp
      rcases List.mem_cons.mp hp with hEq | hmem
      · subst hEq; exact Nat.lt_succ_self _
      · exact Nat.lt_succ_of_lt (hWF p hmem)
    have hchain2 : isChain (insert s.heap s.nextAlloc ⟨item, last⟩)
        (some s.nextAlloc) (s.nextAlloc :: as) = true := by
      refine isChain_cons_intro _ ⟨item, last⟩ (lookup_insert_self _ _ _) ?_
      exact isChain_insert_fresh hchain hfresh
    have hbelow2 : ∀ b ∈ s.nextAlloc :: as, b < s.nextAlloc + 1 := by
      intro b hb
      rcases List.mem_cons.mp hb with hEq | hmem
      · subst hEq; exact Nat.lt_succ_self _
      · exact Nat.lt_succ_of_lt (hbelow _ hmem)
    obtain ⟨as2, h1, h2, h3, h4, h5, h6, h7⟩ :=
      ih { s with
            heap := insert s.heap s.nextAlloc ⟨item, last⟩
            nextAlloc := s.nextAlloc + 1 }
        (some s.nextAlloc) (s.nextAlloc :: as) hWF2 hchain2 hbelow2
    refine ⟨as2 ++ [s.nextAlloc], ?_, ?_, ?_, h4, ?_, h6, h7⟩
    · rw [List.append_assoc, List.singleton_append]
      exact h1
    · rw [List.append_assoc, List.singleton_append, h2]
      have hv : chainValues (insert s.heap s.nextAlloc ⟨item, last⟩)
          (s.nextAlloc :: as) = item :: chainValues s.heap as := by
        rw [chainValues_cons _ _ (lookup_insert_self _ _ _),
          chainValues_insert_fresh _ _ _ _ hfresh]
      rw [hv]
      simp
    · simp only [List.length_append, List.length_cons, List.length_nil,
        List.length_reverse] at h3 ⊢
      omega
    · intro b hb
      apply h5
      rw [List.append_assoc, List.singleton_append] at hb
      exact hb

theorem nodeFromFragGo_fst_some {α : Type} :
    ∀ (items : List α) (s : Stack α) (a : Addr),
      ∃ b : Addr, (nodeFromFragGo s (some a) items).1 = some b := by
  intro items
  induction items with
  | nil => intro s a; exact ⟨a, rfl⟩
  | cons item rest ih =>
    intro s a
    exact ih _ s.nextAlloc

/-! ### Iterator lemmas -/

theorem collect_eq_chainValues {α : Type} (h : Heap α) :
    ∀ {as : List Addr} {p : Option Addr} {fuel : Nat},
      isChain h p as = true → as.length ≤ fuel →
      StackIter.collect h fuel (StackIter.from_ptr p) = chainValues h as := by
  intro as
  induction as with
  | nil =>
    intro p fuel hc _
    rw [isChain_nil_iff] at hc
    subst hc
    cases fuel <;> rfl
  | cons b bs ih =>
    intro p fuel hc hlen
    obtain ⟨hp, nb, hl, hrest⟩ := isChain_cons h hc
    subst hp
    obtain ⟨f, rfl⟩ : ∃ f, fuel = f + 1 := by
      cases fuel with
      | zero => simp at hlen
      | succ f => exact ⟨f, rfl⟩
    have hf : bs.length ≤ f := by
      simpa using Nat.succ_le_succ_iff.mp (by simpa using hlen)
    simp only [StackIter.collect, StackIter.next, StackIter.from_ptr, hl]
    rw [show StackIter.collect h f (⟨nb.next⟩ : StackIter α)
        = chainValues h bs from ih hrest hf]
    simp [chainValues, List.filterMap_cons, hl]

/-! ### Claim theorems -/

/-- C1 (claim refuted by the code — code bug). The claim: on a successful
pop, destroying the deferred node does not destroy the moved-out value
again and does not destroy any node still reachable from the new head.
The source defers the popped head node without storing null into its
`next` and without forgetting its moved-out `inner` (contrast `cap`, whose
failure path does both store null and comments why). Concretely: popping
`stackA` (chain 5 → 4, addresses 0 → 1) succeeds, returns 5, leaves the
new head at address 1 and defers address 0 — and running the destructor of
the deferred node destroys `(1, 4)`, the node still reachable from the new
head, and `(0, 5)`, the value whose ownership already moved to the
caller. -/
theorem c1_pop_deferred_drop_destroys_live_chain :
    (Stack._pop stackA).1 = some 5 ∧
    (Stack._pop stackA).2.head = some 1 ∧
    (Stack._pop stackA).2.deferred = [0] ∧
    isChain (Stack._pop stackA).2.heap (some 1) [1] = true ∧
    (1, 4) ∈ dropDestroys (Stack._pop stackA).2.heap 2 (some 0) ∧
    (0, 5) ∈ dropDestroys (Stack._pop stackA).2.heap 2 (some 0) := by
  decide

/-- C2: `compare_and_swap(old, new)` succeeds iff `old` equals the head at
the moment of the atomic step; on success the head becomes `new` and
`Ok(new)` is returned; on failure head and heap are unchanged and
`Err(actual current head)` is returned. -/
theorem c2_cas_succeeds_iff_head_eq_old {α : Type} (s : Stack α)
    (old new : Option Addr) :
    ((Stack.cas s old new).1 = Except.ok new ↔ s.head = old) ∧
    (s.head = old →
      (Stack.cas s old new).2.head = new ∧
      (Stack.cas s old new).1 = Except.ok new) ∧
    (s.head ≠ old →
      (Stack.cas s old new).2.head = s.head ∧
      (Stack.cas s old new).2.heap = s.heap ∧
      (Stack.cas s old new).1 = Except.error s.head) := by
  by_cases hEq : s.head = old
  · simp [Stack.cas, hEq]
  · simp [Stack.cas, hEq]

/-- Witness for C2 at concrete inputs: a succeeding cas on `stackA`
(expected head `some 0` matches) and a failing one (expected head `none`
does not match). -/
theorem c2_witness :
    (Stack.cas stackA (some 0) none).2.head = none ∧
    (Stack.cas stackA none none).2.head = stackA.head ∧
    (Stack.cas stackA none none).1 = Except.error stackA.head :=
  ⟨((c2_cas_succeeds_iff_head_eq_old stackA (some 0) none).2.1 (by decide)).1,
   ((c2_cas_succeeds_iff_head_eq_old stackA none none).2.2 (by decide)).1,
   ((c2_cas_succeeds_iff_head_eq_old stackA none none).2.2 (by decide)).2.2⟩

/-- C3: on cas success the node deferred is exactly the root `old` (when
non-null), and running the deferred drop destroys exactly the addresses of
the entire chain previously reachable from `old`; on failure the deferred
root is `new` and its deferred drop destroys exactly the entire candidate
chain rooted at `new`. (Whole-chain destruction happens because
`Node::drop` recursively drops the linked tail.) -/
theorem c3_cas_defers_whole_chain {α : Type} (s : Stack α)
    (old new : Option Addr) (asOld asNew : List Addr) (fuel : Nat)
    (hOld : isChain s.heap old asOld = true)
    (hNew : isChain s.heap new asNew = true)
    (hfO : asOld.length ≤ fuel) (hfN : asNew.length ≤ fuel) :
    (s.head = old →
      (Stack.cas s old new).2.deferred = optToList old ++ s.deferred ∧
      (deferredDestroys (Stack.cas s old new).2.heap fuel
          (optToList old)).map Prod.fst = asOld.reverse) ∧
    (s.head ≠ old →
      (Stack.cas s old new).2.deferred = optToList new ++ s.deferred ∧
      (deferredDestroys (Stack.cas s old new).2.heap fuel
          (optToList new)).map Prod.fst = asNew.reverse) := by
  have hdd : ∀ (p : Option Addr) (as : List Addr),
      isChain s.heap p as = true → as.length ≤ fuel →
      (deferredDestroys s.heap fuel (optToList p)).map Prod.fst
        = as.reverse := by
    intro p as hc hf
    cases p with
    | none =>
      rw [isChain_none s.heap hc]
      rfl
    | some a =>
      simp only [optToList, deferredDestroys, List.map_cons, List.map_nil,
        List.flatten_cons, List.flatten_nil, List.append_nil]
      rw [dropDestroys_eq_chainPairs s.heap hc hf]
      rw [List.map_reverse, chainPairs_map_fst s.heap hc]
  constructor
  · intro hEq
    have hheap : (Stack.cas s old new).2.heap = s.heap := by
      simp [Stack.cas, hEq]
    have hdef : (Stack.cas s old new).2.deferred
        = optToList old ++ s.deferred := by
      cases old <;> simp [Stack.cas, hEq, optToList]
    rw [hheap, hdef]
    exact ⟨rfl, hdd old asOld hOld hfO⟩
  · intro hne
    have hheap : (Stack.cas s old new).2.heap = s.heap := by
      simp [Stack.cas, hne]
    have hdef : (Stack.cas s old new).2.deferred
        = optToList new ++ s.deferred := by
      cases new <;> simp [Stack.cas, hne, optToList]
    rw [hheap, hdef]
    exact ⟨rfl, hdd new asNew hNew hfN⟩

/-- Witness for C3: swapping the published `[1, 2, 3]` chain (head at
address 2) out for null defers the root 2, and the deferred drop destroys
addresses 0, 1, 2 — the entire chain, not the root alone. -/
theorem c3_witness :
    (Stack.cas published123 (some 2) none).2.deferred
        = optToList (some 2) ++ published123.deferred ∧
    (deferredDestroys (Stack.cas published123 (some 2) none).2.heap 3
        (optToList (some 2))).map Prod.fst = [2, 1, 0].reverse :=
  (c3_cas_defers_whole_chain published123 (some 2) none [2, 1, 0] [] 3
    (by decide) (by decide) (by decide) (by decide)).1 (by decide)

/-- C4: a failing `compare_and_push(old, value)` returns the actual
current head, leaves the structure unchanged (same head, same chain), the
candidate node ends up with `next` = null and deferred, and — because its
`next` was reset to null — destroying it destroys only the candidate
itself, never the chain it pointed at. -/
theorem c4_cap_failure_resets_next {α : Type} (s : Stack α)
    (old : Option Addr) (v : α) (as : List Addr) (fuel : Nat)
    (hne : s.head ≠ old)
    (hchain : isChain s.heap s.head as = true)
    (hbelow : ∀ b ∈ as, b < s.nextAlloc) :
    (Stack.cap s old v).1 = Except.error s.head ∧
    (Stack.cap s old v).2.head = s.head ∧
    isChain (Stack.cap s old v).2.heap s.head as = true ∧
    s.nextAlloc ∉ as ∧
    lookup (Stack.cap s old v).2.heap s.nextAlloc = some ⟨v, none⟩ ∧
    (Stack.cap s old v).2.deferred = s.nextAlloc :: s.deferred ∧
    dropDestroys (Stack.cap s old v).2.heap (fuel + 1) (some s.nextAlloc)
      = [(s.nextAlloc, v)] := by
  have hfresh : s.nextAlloc ∉ as := fun hmem =>
    Nat.lt_irrefl _ (hbelow _ hmem)
  have hcap : Stack.cap s old v
      = (Except.error s.head,
        { s with
          heap := insert (insert s.heap s.nextAlloc ⟨v, old⟩)
            s.nextAlloc ⟨v, none⟩
          nextAlloc := s.nextAlloc + 1
          deferred := s.nextAlloc :: s.deferred }) := by
    simp [Stack.cap, hne]
  rw [hcap]
  refine ⟨rfl, rfl, ?_, hfresh, ?_, rfl, ?_⟩
  · exact isChain_insert_fresh (isChain_insert_fresh hchain hfresh) hfresh
  · exact lookup_insert_self _ _ _
  · simp only [dropDestroys, lookup_insert_self]
    rfl

/-- Witness for C4: pushing 9 onto `stackA` with the stale expectation
`old = none` fails; the candidate (address 2) gets `next` = null, is
deferred, and destroying it destroys only `(2, 9)`. -/
theorem c4_witness :
    (Stack.cap stackA none 9).1 = Except.error stackA.head ∧
    (Stack.cap stackA none 9).2.head = stackA.head ∧
    isChain (Stack.cap stackA none 9).2.heap stackA.head [0, 1] = true ∧
    stackA.nextAlloc ∉ [0, 1] ∧
    lookup (Stack.cap stackA none 9).2.heap stackA.nextAlloc
      = some ⟨9, none⟩ ∧
    (Stack.cap stackA none 9).2.deferred
      = stackA.nextAlloc :: stackA.deferred ∧
    dropDestroys (Stack.cap stackA none 9).2.heap (1 + 1)
        (some stackA.nextAlloc) = [(stackA.nextAlloc, 9)] :=
  c4_cap_failure_resets_next stackA none 9 [0, 1] 1 (by decide) (by decide)
    (by decide)

/-- C5: for every non-empty input the bulk builder yields an actual node
heading a chain whose values are exactly the input, in order (first
element on top); and concretely, building `[1, 2, 3]`, publishing it with
`compare_and_swap(null, chain)` and draining by repeated pop yields 1,
then 2, then 3, then empty. -/
theorem c5_builder_preserves_order {α : Type} :
    (∀ (s : Stack α) (l : List α), Stack.WF s → l ≠ [] →
      ∃ (a : Addr) (as : List Addr),
        (node_from_frag_vec s l).1 = some a ∧
        isChain (node_from_frag_vec s l).2.heap (some a) as = true ∧
        chainValues (node_from_frag_vec s l).2.heap as = l) ∧
    ((Stack.cas build123.2 none build123.1).1 = Except.ok (some 2) ∧
     (Stack._pop published123).1 = some 1 ∧
     (Stack._pop (Stack._pop published123).2).1 = some 2 ∧
     (Stack._pop (Stack._pop (Stack._pop published123).2).2).1 = some 3 ∧
     (Stack._pop (Stack._pop (Stack._pop published123).2).2).2.head
       = none) := by
  refine ⟨?_, ⟨rfl, rfl, rfl, rfl, rfl⟩⟩
  intro s l hWF hl
  simp only [node_from_frag_vec]
  obtain ⟨as2, h1, h2, h3, _, _, _, _⟩ :=
    nodeFromFragGo_spec l.reverse s none [] hWF rfl
      (by intro b hb; exact absurd hb (List.not_mem_nil b))
  rw [List.append_nil] at h1 h2
  have hlen2 : as2.length = l.length := by
    rw [h3, List.length_reverse]
  obtain ⟨b, bs, rfl⟩ : ∃ b bs, as2 = b :: bs := by
    cases has : as2 with
    | nil =>
      rw [has] at hlen2
      cases hll : l with
      | nil => exact absurd hll hl
      | cons x xs => rw [hll] at hlen2; simp at hlen2
    | cons b bs => exact ⟨b, bs, rfl⟩
  obtain ⟨hp, _, _, _⟩ := isChain_cons _ h1
  refine ⟨b, b :: bs, ?_, ?_, ?_⟩
  · exact hp
  · rw [← hp]; exact h1
  · rw [h2]
    simp [chainValues]

/-- Witness for C5: the builder on `[7, 8]` over a fresh stack yields an
actual chain head whose chain reads back as `[7, 8]`. -/
theorem c5_witness :
    ∃ (a : Addr) (as : List Addr),
      (node_from_frag_vec (Stack.new : Stack Nat) [7, 8]).1 = some a ∧
      isChain (node_from_frag_vec (Stack.new : Stack Nat) [7, 8]).2.heap
          (some a) as = true ∧
      chainValues (node_from_frag_vec (Stack.new : Stack Nat) [7, 8]).2.heap
          as = [7, 8] :=
  c5_builder_preserves_order.1 Stack.new [7, 8] (by decide) (by decide)

/-- C6: the bulk builder hits its `expect` precondition violation
(modelled by a `none` handle) exactly when the input sequence is empty: an
empty input never yields a usable handle, and a non-empty input never
panics. -/
theorem c6_empty_builder_panics {α : Type} (s : Stack α) (l : List α) :
    (node_from_frag_vec s l).1 = none ↔ l = [] := by
  constructor
  · intro hnone
    by_contra hne
    obtain ⟨x, xs, hrev⟩ : ∃ x xs, l.reverse = x :: xs := by
      cases hl : l.reverse with
      | nil =>
        rw [List.reverse_eq_nil_iff] at hl
        exact absurd hl hne
      | cons x xs => exact ⟨x, xs, rfl⟩
    unfold node_from_frag_vec at hnone
    rw [hrev] at hnone
    simp only [nodeFromFragGo] at hnone
    obtain ⟨b, hb⟩ := nodeFromFragGo_fst_some xs
      { s with
        heap := insert s.heap s.nextAlloc ⟨x, none⟩
        nextAlloc := s.nextAlloc + 1 }
      s.nextAlloc
    rw [hb] at hnone
    exact absurd hnone (by simp)
  · intro hl
    subst hl
    rfl

/-- Witness for C6: the builder on the empty list over a fresh stack
returns the panic marker. -/
theorem c6_witness :
    (node_from_frag_vec (Stack.new : Stack Nat) []).1 = none :=
  (c6_empty_builder_panics Stack.new []).mpr rfl

/-- C7: pop on an empty stack (null head) returns `None` immediately and
leaves the state unchanged; push of `v` immediately followed by pop
returns exactly `v` and restores the previous head. -/
theorem c7_pop_empty_push_pop {α : Type} :
    (∀ s : Stack α, s.head = none → Stack._pop s = (none, s)) ∧
    (∀ (s : Stack α) (v : α),
      (Stack._pop (Stack.push s v)).1 = some v ∧
      (Stack._pop (Stack.push s v)).2.head = s.head) := by
  constructor
  · intro s hs
    simp [Stack._pop, hs]
  · intro s v
    simp [Stack.push, Stack._pop, lookup_insert_self]

/-- Witness for C7: pop of the fresh empty stack returns `None` unchanged,
and push 9 then pop on `stackA` returns 9 and restores the head. -/
theorem c7_witness :
    Stack._pop (Stack.new : Stack Nat) = (none, Stack.new) ∧
    (Stack._pop (Stack.push stackA 9)).1 = some 9 ∧
    (Stack._pop (Stack.push stackA 9)).2.head = stackA.head :=
  ⟨c7_pop_empty_push_pop.1 Stack.new rfl,
   c7_pop_empty_push_pop.2 stackA 9⟩

/-- C8 counterexample: the claim that teardown proceeds by a
constant-depth explicit loop — so that tearing down a chain of any length
cannot overflow the call stack — is false on the code: there is no uniform
bound on the nesting depth of destructor invocations, because `Node::drop`
drops the boxed `next` node inside itself, one nested frame per chain
node. -/
theorem c8_counterexample :
    ¬ ∃ c : Nat, ∀ (h : Heap Nat) (p : Option Addr) (as : List Addr),
        isChain h p as = true → dropCallDepth h as.length p ≤ c := by
  rintro ⟨c, hbound⟩
  obtain ⟨as2, h1, _, h3, _, _, _, _⟩ :=
    nodeFromFragGo_spec (List.replicate (c + 1) 0) (Stack.new : Stack Nat)
      none [] (by intro p hp; exact absurd hp (List.not_mem_nil p)) rfl
      (by intro b hb; exact absurd hb (List.not_mem_nil b))
  rw [List.append_nil] at h1
  have hdepth := dropCallDepth_eq_length _ h1 (Nat.le_refl _)
  have hle := hbound _ _ _ h1
  rw [hdepth] at hle
  rw [h3, List.length_replicate] at hle
  omega

/-- C8 amended and proved: structural teardown (`Stack::drop` drops the
head node; `Node::drop` plus field glue) destroys the node's own value and
every node and value of its linked tail exactly once — but it does so by
recursive nested destructor invocation whose nesting depth equals the
chain length, not by a constant-depth explicit loop, so teardown of a
sufficiently long chain can overflow the call stack. -/
theorem c8_teardown_destroys_all_recursively {α : Type} (h : Heap α)
    (p : Option Addr) (as : List Addr) (fuel : Nat)
    (hc : isChain h p as = true) (hf : as.length ≤ fuel) :
    (dropDestroys h fuel p).map Prod.fst = as.reverse ∧
    (dropDestroys h fuel p).map Prod.snd = (chainValues h as).reverse ∧
    dropCallDepth h fuel p = as.length := by
  refine ⟨?_, ?_, dropCallDepth_eq_length h hc hf⟩
  · rw [dropDestroys_eq_chainPairs h hc hf, List.map_reverse,
      chainPairs_map_fst h hc]
  · rw [dropDestroys_eq_chainPairs h hc hf, List.map_reverse,
      chainPairs_map_snd]

/-- Witness for C8's amended theorem: tearing down `stackA` (chain 5 → 4)
destroys addresses 1 then 0 carrying values 4 then 5, at destructor
nesting depth 2. -/
theorem c8_witness :
    (dropDestroys stackA.heap 2 stackA.head).map Prod.fst
      = [0, 1].reverse ∧
    (dropDestroys stackA.heap 2 stackA.head).map Prod.snd
      = (chainValues stackA.heap [0, 1]).reverse ∧
    dropCallDepth stackA.heap 2 stackA.head = 2 :=
  c8_teardown_destroys_all_recursively stackA.heap stackA.head [0, 1] 2
    (by decide) (by decide)

/-- C9: an iterator created from a snapshot pointer to a finite acyclic
chain yields exactly each node's value from top to bottom (so its output
length equals the chain length), and the iterator's `next` never writes to
the heap. -/
theorem c9_iterator_reads_chain_in_order {α : Type} (h : Heap α)
    (p : Option Addr) (as : List Addr) (fuel : Nat)
    (hc : isChain h p as = true) (hf : as.length ≤ fuel) :
    StackIter.collect h fuel (StackIter.from_ptr p) = chainValues h as ∧
    (StackIter.collect h fuel (StackIter.from_ptr p)).length = as.length ∧
    ∀ it : StackIter α, (StackIter.next h it).2.2 = h := by
  refine ⟨collect_eq_chainValues h hc hf, ?_, ?_⟩
  · rw [collect_eq_chainValues h hc hf, chainValues_length h hc]
  · intro it
    cases hit : it.inner with
    | none => simp [StackIter.next, hit]
    | some a => cases hl : lookup h a <;> simp [StackIter.next, hit, hl]

/-- Witness for C9: iterating `stackA` from its head yields `[5, 4]`, of
length 2 = chain length. -/
theorem c9_witness :
    StackIter.collect stackA.heap 2 (StackIter.from_ptr stackA.head)
      = chainValues stackA.heap [0, 1] ∧
    (StackIter.collect stackA.heap 2
        (StackIter.from_ptr stackA.head)).length = 2 :=
  ⟨(c9_iterator_reads_chain_in_order stackA.heap stackA.head [0, 1] 2
      (by decide) (by decide)).1,
   (c9_iterator_reads_chain_in_order stackA.heap stackA.head [0, 1] 2
      (by decide) (by decide)).2.1⟩

/-- C10: `compare_and_swap` never defers a null pointer: succeeding with
`old` = null (publishing onto an empty stack) defers nothing, and failing
with `new` = null (attempting to empty the stack) defers nothing. -/
theorem c10_cas_never_defers_null {α : Type} (s : Stack α)
    (old new : Option Addr) :
    (s.head = none →
      (Stack.cas s none new).1 = Except.ok new ∧
      (Stack.cas s none new).2.deferred = s.deferred) ∧
    (s.head ≠ old →
      (Stack.cas s old none).1 = Except.error s.head ∧
      (Stack.cas s old none).2.deferred = s.deferred) := by
  constructor
  · intro hs
    simp [Stack.cas, hs]
  · intro hs
    simp [Stack.cas, hs]

/-- Witness for C10: publishing onto the fresh empty stack defers nothing;
a failing swap-to-null on `stackA` defers nothing. -/
theorem c10_witness :
    ((Stack.cas (Stack.new : Stack Nat) none (some 5)).1
        = Except.ok (some 5) ∧
     (Stack.cas (Stack.new : Stack Nat) none (some 5)).2.deferred
        = (Stack.new : Stack Nat).deferred) ∧
    ((Stack.cas stackA none none).1 = Except.error stackA.head ∧
     (Stack.cas stackA none none).2.deferred = stackA.deferred) :=
  ⟨(c10_cas_never_defers_null Stack.new none (some 5)).1 rfl,
   (c10_cas_never_defers_null stackA none none).2 (by decide)⟩

end SledStack
